import Mathlib

/-!
Verification of the document transformation engine of
`wordpress-export-to-markdown` (file `src/translator.js`).

The JavaScript source is shallowly embedded: strings are `String`/`List Char`,
the JS regex/string operations used by `getPostContent` and the turndown rules
are modelled by executable Lean functions, and the DOM nodes consulted by the
custom turndown rules are modelled by a small tree type `DNode` together with
the DOM accessors the rules actually use (`querySelector`, `textContent`,
`outerHTML`, `classList.contains`, `getAttribute`, `nodeName`).
-/

set_option maxRecDepth 4000
set_option linter.unusedVariables false

/-! ## Generic string-scanning helpers (JS string/regex primitives) -/

/-- Decompose `l` at the first occurrence of `sep`: returns
`some (before, after)` with `l = before ++ sep ++ after` for the leftmost
occurrence, `none` if `sep` does not occur.  This is the primitive underlying
the models of JS `String.prototype.split`, `includes`, `indexOf` and
single-occurrence `replace`. -/
def splitFirstAux (sep : List Char) : List Char → Option (List Char × List Char)
  | [] => if sep.isEmpty then some ([], []) else none
  | c :: cs =>
    if sep.isPrefixOf (c :: cs) then some ([], (c :: cs).drop sep.length)
    else (splitFirstAux sep cs).map (fun p => (c :: p.1, p.2))

/-- `containsSeq pat l` is true iff `pat` occurs as a contiguous subsequence
of `l` (JS `String.prototype.includes`). -/
def containsSeq (pat l : List Char) : Bool :=
  (splitFirstAux pat l).isSome

/-- JS `s.includes(sep)` on strings. -/
def occursIn (sep s : String) : Bool :=
  containsSeq sep.data s.data

/-- JS `s.replace(pat, rep)` where `pat` is a plain string: replaces only the
first occurrence of `pat` (the string is returned unchanged when `pat` does
not occur). -/
def jsReplaceFirst (s pat rep : String) : String :=
  match splitFirstAux pat.data s.data with
  | some (b, a) => ⟨b ++ rep.data ++ a⟩
  | none => s

/-- JS `s.split(sep)[0]`: the text before the first occurrence of `sep`
(all of `s` when `sep` is absent). -/
def jsSplit0 (sep s : String) : String :=
  match splitFirstAux sep.data s.data with
  | some (b, _) => ⟨b⟩
  | none => s

/-- JS `s.split(sep)[1]`: the text strictly between the first and the second
occurrence of `sep` (up to the end of the string when `sep` occurs only
once); `none` models the JS value `undefined` obtained when `sep` does not
occur at all. -/
def jsSplit1? (sep s : String) : Option String :=
  match splitFirstAux sep.data s.data with
  | some (_, rest) => some (jsSplit0 sep ⟨rest⟩)
  | none => none

/-- JS `String.prototype.trim`. -/
def jsTrim (s : String) : String :=
  ⟨((s.data.dropWhile Char.isWhitespace).reverse.dropWhile Char.isWhitespace).reverse⟩

/-! ## The postprocessing step (translator.js:187)

`content.replace(/(-|\d+\.) +/g, '$1 ')` — global leftmost scan: at each
position an unordered marker `-` or an ordered marker `digits.` followed by
one or more spaces is replaced by the marker followed by exactly one space.
The scan below advances one character on failure, exactly as the regex
engine's leftmost-match search does; on success it resumes after the matched
spaces, exactly as a global replace does. -/

def ppAux : List Char → List Char
  | [] => []
  | c :: rest =>
    if c = '-' then
      if rest.head? = some ' ' then
        '-' :: ' ' :: ppAux (rest.dropWhile (· = ' '))
      else '-' :: ppAux rest
    else if c.isDigit then
      let r := (c :: rest).dropWhile Char.isDigit
      if r.head? = some '.' then
        if r.tail.head? = some ' ' then
          ((c :: rest).takeWhile Char.isDigit) ++ '.' :: ' ' :: ppAux (r.tail.dropWhile (· = ' '))
        else c :: ppAux rest
      else c :: ppAux rest
    else c :: ppAux rest
termination_by l => l.length
decreasing_by
  all_goals simp_wf
  all_goals
    have dwle : ∀ (p : Char → Bool) (l : List Char), (l.dropWhile p).length ≤ l.length := by
      intro p l
      induction l with
      | nil => simp
      | cons a as ih =>
        rw [List.dropWhile_cons]
        split
        · exact Nat.le_succ_of_le ih
        · simp
  · have := dwle (fun x => decide (x = ' ')) cs
    omega
  · have h1 := dwle (fun x => decide (x = ' '))
      (List.dropWhile Char.isDigit (c :: cs)).tail
    have h2 : (List.dropWhile Char.isDigit (c :: cs)).length ≤ cs.length + 1 :=
      dwle Char.isDigit (c :: cs)
    by_cases hnil : List.dropWhile Char.isDigit (c :: cs) = []
    · rw [hnil]
      simp
    · have h5 : (List.dropWhile Char.isDigit (c :: cs)).tail.length + 1
          = (List.dropWhile Char.isDigit (c :: cs)).length := by
        cases hh : List.dropWhile Char.isDigit (c :: cs) with
        | nil => exact absurd hh hnil
        | cons a as => simp
      omega

/-- The Postprocessor: list-marker space normalization applied to the
assembled Markdown (translator.js:187). -/
def postprocess (s : String) : String := ⟨ppAux s.data⟩

/-! ## The DOM node model

The turndown rules in `initTurndownService` consult only these features of a
DOM node: `nodeName` (uppercased tag name, `#text` for text nodes),
`getAttribute`, `classList.contains`, `querySelector` with a tag or a class
selector (first matching descendant in document order), `textContent`,
`outerHTML`, and (for the script rule) the previous sibling's `nodeName`. -/

inductive DNode where
  | elem (tag : String) (attrs : List (String × String)) (children : List DNode)
  | text (s : String)

/-- Uppercase a string (DOM `nodeName` capitalisation of HTML tag names). -/
def upper (s : String) : String := ⟨s.data.map Char.toUpper⟩

/-- DOM `nodeName`: the uppercased tag for elements, `#text` for text nodes. -/
def nodeName : DNode → String
  | .elem t _ _ => upper t
  | .text _ => "#text"

/-- DOM `getAttribute` (`none` models the JS value `null`). -/
def getAttrVal (n : DNode) (name : String) : Option String :=
  match n with
  | .elem _ attrs _ => (attrs.find? (fun p => p.1 == name)).map (·.2)
  | .text _ => none

/-- Split a class attribute value into space-separated tokens
(DOM `classList`; the class attributes in this development use single
spaces as separators). -/
def classTokens : List Char → List (List Char)
  | [] => []
  | c :: cs =>
    if h : c = ' ' then classTokens cs
    else ((c :: cs).takeWhile (· ≠ ' ')) :: classTokens ((c :: cs).dropWhile (· ≠ ' '))
termination_by l => l.length
decreasing_by
  all_goals simp_wf
  all_goals
    (have h2 : List.dropWhile (fun x => !decide (x = ' ')) (c :: cs)
        = List.dropWhile (fun x => !decide (x = ' ')) cs := by
      rw [List.dropWhile_cons]
      simp [h]);
    rw [h2]
    have dwle : ∀ (p : Char → Bool) (l : List Char), (l.dropWhile p).length ≤ l.length := by
      intro p l
      induction l with
      | nil => simp
      | cons a as ih =>
        rw [List.dropWhile_cons]
        split
        · exact Nat.le_succ_of_le ih
        · simp
    have := dwle (fun x => !decide (x = ' ')) cs
    omega

/-- DOM `classList.contains`. -/
def classListContains (n : DNode) (cls : String) : Bool :=
  (classTokens ((getAttrVal n "class").getD "").data).contains cls.data

/-- A CSS selector of the two shapes used by translator.js: a tag name
(`'table'`, `'figcaption'`, `'code'`) or a class (`'.wp-block-embed__wrapper'`). -/
inductive Selector where
  | tag (t : String)
  | cls (c : String)

/-- Whether a node matches a selector (elements only). -/
def selMatches (sel : Selector) (n : DNode) : Bool :=
  match sel, n with
  | .tag t, .elem tg _ _ => tg == t
  | .cls c, .elem tg attrs kids => classListContains (.elem tg attrs kids) c
  | _, _ => false

/-- First selector match in a forest, in document (preorder, depth-first)
order: each node is checked before its subtree, subtrees before later
siblings. -/
def qsList (sel : Selector) : List DNode → Option DNode
  | [] => none
  | (DNode.text _) :: cs => qsList sel cs
  | (DNode.elem t a kids) :: cs =>
    if selMatches sel (.elem t a kids) then some (.elem t a kids)
    else
      match qsList sel kids with
      | some r => some r
      | none => qsList sel cs
termination_by l => sizeOf l
decreasing_by
  all_goals simp_wf
  all_goals omega

/-- DOM `querySelector`: first matching descendant of `n` (the node itself is
not considered), in document order. -/
def querySelector (n : DNode) (sel : Selector) : Option DNode :=
  match n with
  | .elem _ _ kids => qsList sel kids
  | .text _ => none

/-- DOM `textContent` of a forest. -/
def textContentList : List DNode → String
  | [] => ""
  | (DNode.text s) :: cs => s ++ textContentList cs
  | (DNode.elem _ _ kids) :: cs => textContentList kids ++ textContentList cs
termination_by l => sizeOf l
decreasing_by
  all_goals simp_wf
  all_goals omega

/-- DOM `textContent`. -/
def textContent (n : DNode) : String := textContentList [n]

/-- Serialize an attribute list as ` name="value" name="value"…`.  (The
example nodes used below contain no characters that HTML serialization would
entity-escape, so no escaping is modelled.) -/
def attrsHtml (attrs : List (String × String)) : String :=
  attrs.foldl (fun acc p => acc ++ " " ++ p.1 ++ "=\"" ++ p.2 ++ "\"") ""

/-- Serialize a forest as HTML. -/
def innerHTMLList : List DNode → String
  | [] => ""
  | (DNode.text s) :: cs => s ++ innerHTMLList cs
  | (DNode.elem t attrs kids) :: cs =>
    "<" ++ t ++ attrsHtml attrs ++ ">" ++ innerHTMLList kids ++ "</" ++ t ++ ">"
      ++ innerHTMLList cs
termination_by l => sizeOf l
decreasing_by
  all_goals simp_wf
  all_goals omega

/-- DOM `outerHTML`. -/
def outerHTML (n : DNode) : String := innerHTMLList [n]

/-! ## The custom turndown rules (translator.js:18-159)

Each rule is a `filter` predicate on nodes plus a `replacement` function
taking the converted-children string and the node.  The replacement of the
`wpBlockTable` rule re-invokes the whole conversion engine
(`turndownService.turndown`) on isolated markup; that engine is passed in as
an explicit function argument `td`. -/

/-- Filter of the `script` rule (translator.js:48-49): any script element. -/
def scriptFilter (n : DNode) : Bool := nodeName n == "SCRIPT"

/-- The script rule's spacing condition (translator.js:52): the node has a
previous sibling and that sibling is not a text node. -/
def prevTightens : Option DNode → Bool
  | some p => nodeName p != "#text"
  | none => false

/-- Replacement of the `script` rule (translator.js:50-58): the node's
`outerHTML` with the first `async=""` rewritten to `async`, preceded by one
newline when the previous sibling exists and is not a text node (two
newlines otherwise) and followed by two newlines. -/
def scriptReplacement (node : DNode) (prevSibling : Option DNode) : String :=
  (if prevTightens prevSibling then "\n" else "\n\n")
    ++ jsReplaceFirst (outerHTML node) "async=\"\"" "async" ++ "\n\n"

/-- Replacement of the `iframe` rule (translator.js:62-70): the node's
`outerHTML` with the first `allowfullscreen=""` rewritten to
`allowfullscreen` and then the first `allowpaymentrequest=""` rewritten to
`allowpaymentrequest`, padded with two newlines on both sides. -/
def iframeReplacement (node : DNode) : String :=
  "\n\n"
    ++ jsReplaceFirst
        (jsReplaceFirst (outerHTML node) "allowfullscreen=\"\"" "allowfullscreen")
        "allowpaymentrequest=\"\"" "allowpaymentrequest"
    ++ "\n\n"

/-- Replacement of the `figure` rule (translator.js:73-85): when the figure
contains a `figcaption` descendant, wrap the converted children in explicit
`<figure>` tags with double-newline padding inside and out and collapse
(only) the first occurrence of four consecutive newlines to two (JS
`String.prototype.replace` with a string pattern replaces the first
occurrence only); otherwise return the converted children unchanged. -/
def figureReplacement (content : String) (node : DNode) : String :=
  if (querySelector node (Selector.tag "figcaption")).isSome then
    jsReplaceFirst ("\n\n<figure>\n\n" ++ content ++ "\n\n</figure>\n\n") "\n\n\n\n" "\n\n"
  else content

/-- Replacement of the `figcaption` rule (translator.js:88-94). -/
def figcaptionReplacement (content : String) : String :=
  "\n\n<figcaption>\n\n" ++ content ++ "\n\n</figcaption>\n\n"

/-- Filter of the `pre` rule (translator.js:97-101): a `pre` element with no
`code` descendant. -/
def preFilter (n : DNode) : Bool :=
  nodeName n == "PRE" && (querySelector n (Selector.tag "code")).isNone

/-- Replacement of the `pre` rule (translator.js:102-105): a fenced code
block tagged with the node's `data-wetm-language` attribute (empty when
absent) containing the node's raw `textContent`. -/
def preReplacement (node : DNode) : String :=
  "\n\n```" ++ ((getAttrVal node "data-wetm-language").getD "") ++ "\n"
    ++ textContent node ++ "\n```\n\n"

/-- Filter of the `wpBlockTable` rule (translator.js:110-115): a figure
element whose class list contains `wp-block-table`. -/
def wpBlockTableFilter (n : DNode) : Bool :=
  nodeName n == "FIGURE" && classListContains n "wp-block-table"

/-- Replacement of the `wpBlockTable` rule (translator.js:116-132): convert
the first nested `table` (empty string when there is none) via the engine
`td`; when a `figcaption` is present, append two newlines and the converted
caption. -/
def wpBlockTableReplacement (td : String → String) (content : String) (node : DNode) :
    String :=
  let tableMarkdown :=
    match querySelector node (Selector.tag "table") with
    | some t => td (outerHTML t)
    | none => ""
  match querySelector node (Selector.tag "figcaption") with
  | some fc => tableMarkdown ++ "\n\n" ++ td (outerHTML fc)
  | none => tableMarkdown

/-- `extractYoutubeVideoId` (translator.js:5-16), body inside the `try`:
`none` models a thrown exception (the `catch` branch).  The JS body is
`url.split('watch?v=')[1].split('&')[0]` resp.
`url.split('youtu.be/')[1].split('?')[0]` guarded by `url.includes(...)`;
`[1]` of a split is `undefined` exactly when the separator does not occur, in
which case `.split` on it would throw. -/
def extractBody (url : String) : Option String :=
  if occursIn "watch?v=" url then
    (jsSplit1? "watch?v=" url).map (fun seg => jsSplit0 "&" seg)
  else if occursIn "youtu.be/" url then
    (jsSplit1? "youtu.be/" url).map (fun seg => jsSplit0 "?" seg)
  else some ""

/-- `extractYoutubeVideoId` (translator.js:5-16): the `catch` branch returns
the empty string. -/
def extractYoutubeVideoId (url : String) : String :=
  (extractBody url).getD ""

/-- Filter of the `wpEmbedYoutube` rule (translator.js:138-143). -/
def wpEmbedYoutubeFilter (n : DNode) : Bool :=
  nodeName n == "FIGURE" && classListContains n "wp-block-embed-youtube"

/-- The fixed iframe markup emitted by the `wpEmbedYoutube` rule
(translator.js:150-152). -/
def youtubeIframeHtml (videoId : String) : String :=
  "\n\n<iframe width=\"560\" height=\"315\" src=\"https://www.youtube.com/embed/"
    ++ videoId
    ++ "\" title=\"YouTube video player\" frameborder=\"0\" allow=\"accelerometer; autoplay; clipboard-write; encrypted-media; gyroscope; picture-in-picture\" allowfullscreen></iframe>\n\n"

/-- Replacement of the `wpEmbedYoutube` rule (translator.js:144-156): find
the `.wp-block-embed__wrapper` descendant, take its trimmed text content as
the URL, extract a video id; a nonempty id yields the fixed iframe embed,
otherwise (and when there is no wrapper) the converted children are
returned. -/
def wpEmbedYoutubeReplacement (content : String) (node : DNode) : String :=
  match querySelector node (Selector.cls "wp-block-embed__wrapper") with
  | some wrapper =>
    let videoId := extractYoutubeVideoId (jsTrim (textContent wrapper))
    if videoId ≠ "" then youtubeIframeHtml videoId else content
  | none => content

/-! ## The preprocessing regexes of getPostContent (translator.js:161-184) -/

/-- One `\r?\n` (greedy `\r?`, as in JS): the rest after consuming a newline
pair, `none` when the input does not start with one. -/
def nlPairRest : List Char → Option (List Char)
  | '\r' :: '\n' :: rest => some rest
  | '\n' :: rest => some rest
  | _ => none

/-- Global replace of `/(\r?\n){2}/g` by `\n<div></div>\n`
(translator.js:167).  `fuel` bounds the scan; it is instantiated with the
input length, which suffices since every step consumes at least one
character. -/
def divIns : Nat → List Char → List Char
  | 0, l => l
  | _ + 1, [] => []
  | fuel + 1, c :: cs =>
    match nlPairRest (c :: cs) with
    | some r1 =>
      match nlPairRest r1 with
      | some r2 => "\n<div></div>\n".data ++ divIns fuel r2
      | none => c :: divIns fuel cs
    | none => c :: divIns fuel cs

/-- The paragraph-gap marker insertion step (translator.js:167). -/
def divInsertStep (s : String) : String := ⟨divIns s.data.length s.data⟩

/-- A character matched by `.` in a JS regex without the `s` flag: anything
but a line terminator. -/
def jsDot (c : Char) : Bool :=
  c ≠ '\n' && c ≠ '\r' && c ≠ ' ' && c ≠ ' '

/-- All decompositions `l = mid ++ "-->" ++ rest` whose `mid` contains no
line terminator, in order of increasing `mid` (used to model the greedy
`( .*)?--` of the more-comment regex, which backtracks from the longest
newline-free `mid`). -/
def arrowSplitsAux : List Char → List (List Char × List Char)
  | [] => []
  | c :: cs =>
    let hd : List (List Char × List Char) :=
      match c, cs with
      | '-', '-' :: '>' :: rest => [([], rest)]
      | _, _ => []
    let tl :=
      if jsDot c then (arrowSplitsAux cs).map (fun p => (c :: p.1, p.2))
      else []
    hd ++ tl

/-- Match of `/<(!--more( .*)?--)>/` at the start of `l`
(translator.js:177): on success, `some (group1, rest)` where `group1` is the
first capture (`!--more( .*)?--`) and `rest` is the input after the full
match.  The optional ` .*` is greedy: the longest newline-free label wins. -/
def matchMoreAt (l : List Char) : Option (List Char × List Char) :=
  if "<!--more".data.isPrefixOf l then
    let after := l.drop 8
    match after with
    | ' ' :: w =>
      match (arrowSplitsAux w).getLast? with
      | some (mid, rest) => some ("!--more ".data ++ mid ++ "--".data, rest)
      | none => none
    | _ =>
      if "-->".data.isPrefixOf after then some ("!--more--".data, after.drop 3)
      else none
  else none

/-- `content.replace(/<(!--more( .*)?--)>/, '&lt;$1&gt;')`
(translator.js:177): leftmost match only (the regex has no `g` flag);
everything after the first match is copied verbatim. -/
def escapeMoreAux : List Char → List Char
  | [] => []
  | c :: cs =>
    match matchMoreAt (c :: cs) with
    | some (g, rest) => "&lt;".data ++ g ++ "&gt;".data ++ rest
    | none => c :: escapeMoreAux cs

/-- The more-separator escaping step (translator.js:177). -/
def escapeMoreStep (s : String) : String := ⟨escapeMoreAux s.data⟩

/-- Whether the more-comment regex matches anywhere in `l`. -/
def hasMoreMatch : List Char → Bool
  | [] => false
  | c :: cs => (matchMoreAt (c :: cs)).isSome || hasMoreMatch cs

/-- Case-insensitive character comparison (the `i` flag of the image regex). -/
def ciEq (a b : Char) : Bool := a.toLower == b.toLower

/-- Case-insensitive prefix test. -/
def ciPrefixOf : List Char → List Char → Bool
  | [], _ => true
  | _ :: _, [] => false
  | a :: as, b :: bs => ciEq a b && ciPrefixOf as bs

/-- First `some` produced by `f` over `xs`, in order (used to model
backtracking: the candidate list fixes the order in which the regex engine
tries alternatives). -/
def firstSome (f : α → Option β) : List α → Option β
  | [] => none
  | a :: as =>
    match f a with
    | some b => some b
    | none => firstSome f as

/-- The extension alternation `(?:gif|jpe?g|png|webp)` of the image regex, in
the engine's trial order (`jpe?g` tries the greedy `jpeg` before `jpg`). -/
def imgExts : List (List Char) :=
  ["gif".data, "jpeg".data, "jpg".data, "png".data, "webp".data]

/-- Match of `/(<img[^>]*src=").*?([^\/"]+\.(?:gif|jpe?g|png|webp))("[^>]*>)/i`
at the start of `l` (translator.js:172).  On success returns
`some (replaced, rest)` where `replaced` is the replacement
`$1images/$2$3` for this match and `rest` is the input after the match.
Backtracking order is the JS engine's: `[^>]*` greedy (longest split first),
`.*?` lazy (shortest first), `[^\/"]+` greedy, alternation left to right. -/
def imgMatchAt (l : List Char) : Option (List Char × List Char) :=
  if ciPrefixOf "<img".data l then
    let l4 := l.drop 4
    let maxK := (l4.takeWhile (· ≠ '>')).length
    firstSome (fun k =>
      if ciPrefixOf "src=\"".data (l4.drop k) then
        let g1 := l.take (4 + k + 5)
        let after1 := l4.drop (k + 5)
        let maxJ := (after1.takeWhile jsDot).length
        firstSome (fun j =>
          let rest2 := after1.drop j
          let run := rest2.takeWhile (fun c => c ≠ '/' && c ≠ '"')
          firstSome (fun t =>
            if t = 0 then none
            else if (rest2.drop t).head? = some '.' then
              let rest3 := rest2.drop (t + 1)
              firstSome (fun ext =>
                if ciPrefixOf ext rest3 then
                  let rest4 := rest3.drop ext.length
                  match rest4 with
                  | '"' :: w =>
                    let ww := w.takeWhile (· ≠ '>')
                    if (w.drop ww.length).head? = some '>' then
                      let comp := rest2.take t ++ '.' :: rest3.take ext.length
                      let g3 := '"' :: ww ++ ['>']
                      some (g1 ++ "images/".data ++ comp ++ g3,
                            w.drop (ww.length + 1))
                    else none
                  | _ => none
                else none) imgExts
            else none) (List.range (run.length + 1)).reverse)
          (List.range (maxJ + 1))
      else none) (List.range (maxK + 1)).reverse
  else none

/-- Global replace for the image-path regex (translator.js:172); `fuel` is
instantiated with the input length, which suffices since every step consumes
at least one character. -/
def imgRewriteAux : Nat → List Char → List Char
  | 0, l => l
  | _ + 1, [] => []
  | fuel + 1, c :: cs =>
    match imgMatchAt (c :: cs) with
    | some (rep, rest) => rep ++ imgRewriteAux fuel rest
    | none => c :: imgRewriteAux fuel cs

/-- The image-path rewrite applied to a content string (translator.js:172). -/
def imgRewrite (s : String) : String := ⟨imgRewriteAux s.data.length s.data⟩

/-- The image step of `getPostContent` (translator.js:169-173): the rewrite
runs only when `config.saveScrapedImages` is set. -/
def imgRewriteStep (saveScrapedImages : Bool) (s : String) : String :=
  if saveScrapedImages then imgRewrite s else s

/-- Modelled from the spec: the conversion step parses character entities in
text back into characters (spec §4.1: the entity escape exists so "the tree
parser treats it as literal text"; the source comment on translator.js:176
states the escaped brackets "will be unescaped during turndown conversion").
Only the two entities produced by the more-escape step are modelled. -/
def unescEntAux : List Char → List Char
  | '&' :: 'l' :: 't' :: ';' :: rest => '<' :: unescEntAux rest
  | '&' :: 'g' :: 't' :: ';' :: rest => '>' :: unescEntAux rest
  | c :: rest => c :: unescEntAux rest
  | [] => []

/-- Entity decoding lifted to strings. -/
def unescEntities (s : String) : String := ⟨unescEntAux s.data⟩

/-- `getPostContent` (translator.js:161-190) specialised to a content string
that the converter sees as a single text node — no elements, no image tags,
no `<!-- wp:` comments — with `config.saveScrapedImages` false.  On such
content the image step and the code-language step match nothing, and the
turndown call is modelled (see `unescEntAux`) as entity decoding of the text.
The remaining steps are exactly the source's: paragraph-gap marker insertion,
more-separator escaping, conversion, list-marker cleanup. -/
def convertPlainText (s : String) : String :=
  postprocess (unescEntities (escapeMoreStep (divInsertStep s)))

/-! ## Spec-side transcriptions (for refinement comparisons only)

These definitions transcribe the *wording* of the specification / claims, to
be compared against the source-derived definitions above.  They are not part
of the embedding of the program. -/

/-- The text after the first occurrence of `sep` in `s`, up to the end of the
string ("the segment after the first `sep`"); `none` when `sep` is absent. -/
def segAfterFirst? (sep s : String) : Option String :=
  (splitFirstAux sep.data s.data).map (fun p => (⟨p.2⟩ : String))

/-- The text before the first occurrence of `sep` in `s` ("up to the next
`sep`"; all of `s` when `sep` is absent). -/
def segBeforeFirst (sep s : String) : String :=
  match splitFirstAux sep.data s.data with
  | some p => ⟨p.1⟩
  | none => s

/-- Claim C4's description of the video-id extraction, read literally: the
segment after the first `watch?v=` up to the next `&` (resp. after the first
`youtu.be/` up to the next `?`), with no other truncation. -/
def claimedVideoId (url : String) : String :=
  if occursIn "watch?v=" url then
    segBeforeFirst "&" ((segAfterFirst? "watch?v=" url).getD "")
  else if occursIn "youtu.be/" url then
    segBeforeFirst "?" ((segAfterFirst? "youtu.be/" url).getD "")
  else ""

/-- The amended description of the video-id extraction: the segment after the
first `watch?v=` is truncated at the next occurrence of `watch?v=` itself
(split semantics) and then at the next `&` (resp. `youtu.be/` and `?`). -/
def amendedVideoId (url : String) : String :=
  if occursIn "watch?v=" url then
    segBeforeFirst "&" (segBeforeFirst "watch?v=" ((segAfterFirst? "watch?v=" url).getD ""))
  else if occursIn "youtu.be/" url then
    segBeforeFirst "?" (segBeforeFirst "youtu.be/" ((segAfterFirst? "youtu.be/" url).getD ""))
  else ""

/-! ## Observation predicates used by the theorems -/

/-- Whether a list-marker-with-extra-space pattern starts at the head of `l`:
`- ␣␣` or `digit.␣␣` (the last digit of a `\d+` run, a dot, and at least two
spaces).  Any occurrence of `(-|\d+\.) {2,}` in a string contains such a
window, and conversely. -/
def badAt (l : List Char) : Bool :=
  (l.head? == some '-' && l.tail.head? == some ' ' && l.tail.tail.head? == some ' ')
  || ((l.head?.map Char.isDigit).getD false && l.tail.head? == some '.'
      && l.tail.tail.head? == some ' ' && l.tail.tail.tail.head? == some ' ')

/-- `noExtraSpace l` is true iff no position of `l` starts a
marker-with-two-or-more-spaces window. -/
def noExtraSpace : List Char → Bool
  | [] => true
  | c :: rest => !badAt (c :: rest) && noExtraSpace rest

/-! ## Concrete example nodes -/

/-- A `figure.wp-block-table` containing a caption but no table. -/
def figTableNoTable : DNode :=
  .elem "figure" [("class", "wp-block-table")] [.elem "figcaption" [] [.text "cap"]]

/-- A `figure.wp-block-table` with no children at all. -/
def figTableBare : DNode :=
  .elem "figure" [("class", "wp-block-table")] []

/-- A figure containing a caption. -/
def figWithCaption : DNode :=
  .elem "figure" [] [.elem "figcaption" [] [.text "hi"]]

/-- A figure with no caption. -/
def figPlain : DNode := .elem "figure" [] [.text "hi"]

/-- A YouTube-embed figure whose wrapper holds a non-YouTube URL. -/
def ytFigOther : DNode :=
  .elem "figure" [("class", "wp-block-embed wp-block-embed-youtube")]
    [.elem "div" [("class", "wp-block-embed__wrapper")]
      [.text "https://example.com/video"]]

/-- A tweet-embed script element carrying `async=""`. -/
def tweetScript : DNode :=
  .elem "script" [("src", "https://platform.twitter.com/widgets.js"), ("async", "")] []

/-- A tweet blockquote (an element, not a text node). -/
def tweetQuote : DNode := .elem "blockquote" [("class", "twitter-tweet")] []

/-- An iframe element carrying `allowfullscreen=""`. -/
def sampleIframe : DNode :=
  .elem "iframe" [("src", "https://e/x"), ("allowfullscreen", "")] []

/-- A `pre` element (no `code` child, no language attribute) whose text holds
a dash followed by two spaces. -/
def samplePre : DNode := .elem "pre" [] [.text "x -  y"]

/-! # Theorems

First, generic helper lemmas about the scanning primitives and the
postprocessor; then, one theorem per claim (with counterexamples and
witnesses where applicable). -/

theorem tail_head?_eq (l : List Char) : l.tail.head? = l[1]? := by
  cases l with
  | nil => simp
  | cons a as => simp [List.head?_eq_getElem?]

theorem ppAux_dash_hit (rest : List Char) (h : rest.head? = some ' ') :
    ppAux ('-' :: rest) = '-' :: ' ' :: ppAux (rest.dropWhile (· = ' ')) := by
  rw [ppAux]
  simp [h]

theorem ppAux_dash_miss (rest : List Char) (h : rest.head? ≠ some ' ') :
    ppAux ('-' :: rest) = '-' :: ppAux rest := by
  rw [ppAux]
  simp [h]

theorem ppAux_other (c : Char) (rest : List Char) (h1 : c ≠ '-')
    (h2 : c.isDigit = false) : ppAux (c :: rest) = c :: ppAux rest := by
  rw [ppAux]
  simp [h1, h2]

theorem ne_dash_of_digit {c : Char} (hc : c.isDigit = true) : c ≠ '-' := by
  intro he
  rw [he] at hc
  simp [Char.isDigit] at hc

theorem ppAux_digit_hit (c : Char) (rest : List Char) (hc : c.isDigit = true)
    (hdot : ((c :: rest).dropWhile Char.isDigit).head? = some '.')
    (hsp : ((c :: rest).dropWhile Char.isDigit).tail.head? = some ' ') :
    ppAux (c :: rest)
      = ((c :: rest).takeWhile Char.isDigit)
          ++ '.' :: ' ' :: ppAux (((c :: rest).dropWhile Char.isDigit).tail.dropWhile (· = ' ')) := by
  rw [List.dropWhile_cons_of_pos hc] at hdot hsp
  have hsp2 : (rest.dropWhile Char.isDigit)[1]? = some ' ' := by
    rw [← tail_head?_eq]
    exact hsp
  rw [ppAux]
  simp [ne_dash_of_digit hc, hc, hdot, hsp2, List.takeWhile_cons_of_pos,
    List.dropWhile_cons_of_pos]

theorem ppAux_digit_miss (c : Char) (rest : List Char) (hc : c.isDigit = true)
    (hf : ¬(((c :: rest).dropWhile Char.isDigit).head? = some '.'
        ∧ ((c :: rest).dropWhile Char.isDigit).tail.head? = some ' ')) :
    ppAux (c :: rest) = c :: ppAux rest := by
  rw [List.dropWhile_cons_of_pos hc] at hf
  rw [ppAux]
  by_cases hdot : (rest.dropWhile Char.isDigit).head? = some '.'
  · have hsp : ¬(rest.dropWhile Char.isDigit).tail.head? = some ' ' := by
      intro hs
      exact hf ⟨hdot, hs⟩
    have hsp2 : ¬(rest.dropWhile Char.isDigit)[1]? = some ' ' := by
      rw [← tail_head?_eq]
      exact hsp
    simp [ne_dash_of_digit hc, hc, hdot, hsp2]
  · simp [ne_dash_of_digit hc, hc, hdot]

theorem head?_ppAux (l : List Char) : (ppAux l).head? = l.head? := by
  match l with
  | [] => simp [ppAux]
  | c :: rest =>
    by_cases h1 : c = '-'
    · subst h1
      by_cases h2 : rest.head? = some ' '
      · rw [ppAux_dash_hit rest h2]
        simp
      · rw [ppAux_dash_miss rest h2]
        simp
    · by_cases h2 : c.isDigit = true
      · by_cases h3 : ((c :: rest).dropWhile Char.isDigit).head? = some '.'
          ∧ ((c :: rest).dropWhile Char.isDigit).tail.head? = some ' '
        · rw [ppAux_digit_hit c rest h2 h3.1 h3.2]
          rw [List.takeWhile_cons_of_pos h2]
          simp
        · rw [ppAux_digit_miss c rest h2 h3]
          simp
      · rw [ppAux_other c rest h1 (by simpa using h2)]
        simp

theorem dropWhile_eq_self_of_head (p : Char → Bool) (l : List Char)
    (h : ∀ a, l.head? = some a → p a = false) : l.dropWhile p = l := by
  cases l with
  | nil => rfl
  | cons a as =>
    rw [List.dropWhile_cons]
    simp [h a rfl]

theorem head_dropWhile_no (p : Char → Bool) (l : List Char) :
    ∀ a, (l.dropWhile p).head? = some a → p a = false := by
  intro a ha
  have := List.head?_dropWhile_not p l
  rw [ha] at this
  exact this

theorem ppAux_digits_app (ds r : List Char) (hds : ∀ c ∈ ds, c.isDigit = true)
    (hr : ∀ a, r.head? = some a → a.isDigit = false)
    (hfail : ¬(r.head? = some '.' ∧ r.tail.head? = some ' ')) :
    ppAux (ds ++ r) = ds ++ ppAux r := by
  induction ds with
  | nil => simp
  | cons d ds ih =>
    have hd : d.isDigit = true := hds d (by simp)
    have hds' : ∀ c ∈ ds, c.isDigit = true := fun c hc => hds c (by simp [hc])
    have hdw : ((d :: (ds ++ r)).dropWhile Char.isDigit) = r := by
      rw [List.dropWhile_cons_of_pos hd, List.dropWhile_append_of_pos hds',
        dropWhile_eq_self_of_head Char.isDigit r hr]
    rw [List.cons_append, ppAux_digit_miss d (ds ++ r) hd (by rw [hdw]; exact hfail)]
    rw [ih hds']
    simp

theorem dwle_thm (p : Char → Bool) (l : List Char) :
    (l.dropWhile p).length ≤ l.length := by
  induction l with
  | nil => simp
  | cons a as ih =>
    rw [List.dropWhile_cons]
    split
    · exact Nat.le_succ_of_le ih
    · simp

theorem dropWhile_space_head (l : List Char) :
    (l.dropWhile (· = ' ')).head? ≠ some ' ' := by
  intro h
  have := head_dropWhile_no (fun a => decide (a = ' ')) l ' ' h
  simp at this

theorem ppAux_idem_aux : ∀ (n : Nat) (l : List Char), l.length ≤ n →
    ppAux (ppAux l) = ppAux l := by
  intro n
  induction n with
  | zero =>
    intro l hl
    have : l = [] := List.length_eq_zero.mp (Nat.le_zero.mp hl)
    subst this
    simp [ppAux]
  | succ n ih =>
    intro l hl
    match l with
    | [] => simp [ppAux]
    | c :: rest =>
      have hrest : rest.length ≤ n := by
        simp only [List.length_cons] at hl
        omega
      by_cases h1 : c = '-'
      · subst h1
        by_cases h2 : rest.head? = some ' '
        · -- dash followed by spaces: the marker is normalized to one space
          rw [ppAux_dash_hit rest h2]
          have hr3 : (rest.dropWhile (· = ' ')).head? ≠ some ' ' :=
            dropWhile_space_head rest
          have hh : (' ' :: ppAux (rest.dropWhile (· = ' '))).head? = some ' ' := rfl
          rw [ppAux_dash_hit _ hh]
          have hdw : ((' ' :: ppAux (rest.dropWhile (· = ' '))).dropWhile (· = ' '))
              = ppAux (rest.dropWhile (· = ' ')) := by
            rw [List.dropWhile_cons_of_pos (by simp)]
            apply dropWhile_eq_self_of_head
            intro a ha
            rw [head?_ppAux] at ha
            simp only [decide_eq_false_iff_not]
            intro he
            subst he
            exact hr3 ha
          rw [hdw]
          rw [ih (rest.dropWhile (· = ' '))
            (le_trans (dwle_thm _ rest) hrest)]
        · rw [ppAux_dash_miss rest h2]
          have h2' : (ppAux rest).head? ≠ some ' ' := by
            rw [head?_ppAux]
            exact h2
          rw [ppAux_dash_miss _ h2', ih rest hrest]
      · by_cases hc : c.isDigit = true
        · by_cases h3 : ((c :: rest).dropWhile Char.isDigit).head? = some '.'
            ∧ ((c :: rest).dropWhile Char.isDigit).tail.head? = some ' '
          · -- digit marker followed by spaces
            obtain ⟨hdot, hsp⟩ := h3
            rw [ppAux_digit_hit c rest hc hdot hsp]
            set ds := (c :: rest).takeWhile Char.isDigit with hds
            set r4 := ((c :: rest).dropWhile Char.isDigit).tail.dropWhile (· = ' ') with hr4
            have hdsd : ∀ a ∈ ds, a.isDigit = true := fun a ha =>
              List.mem_takeWhile_imp ha
            have hdsc : ds = c :: rest.takeWhile Char.isDigit := by
              rw [hds, List.takeWhile_cons_of_pos hc]
            have hr4h : (ppAux r4).head? ≠ some ' ' := by
              rw [head?_ppAux]
              exact dropWhile_space_head _
            have hY : (ds ++ '.' :: ' ' :: ppAux r4).dropWhile Char.isDigit
                = '.' :: ' ' :: ppAux r4 := by
              rw [List.dropWhile_append_of_pos hdsd, List.dropWhile_cons]
              simp
            have hT : (ds ++ '.' :: ' ' :: ppAux r4).takeWhile Char.isDigit = ds := by
              rw [List.takeWhile_append_of_pos hdsd, List.takeWhile_cons]
              simp
            rw [hdsc, List.cons_append,
              ppAux_digit_hit c (rest.takeWhile Char.isDigit ++ '.' :: ' ' :: ppAux r4) hc
                (by rw [← List.cons_append, ← hdsc, hY]; rfl)
                (by rw [← List.cons_append, ← hdsc, hY]; rfl)]
            rw [← List.cons_append, ← hdsc, hY, hT]
            have hdw2 : (('.' :: ' ' :: ppAux r4).tail.dropWhile (· = ' ')) = ppAux r4 := by
              show ((' ' :: ppAux r4).dropWhile (· = ' ')) = ppAux r4
              rw [List.dropWhile_cons_of_pos (by simp)]
              apply dropWhile_eq_self_of_head
              intro a ha
              simp only [decide_eq_false_iff_not]
              intro he
              subst he
              exact hr4h ha
            rw [hdw2]
            have hr4n : r4.length ≤ n := by
              have e1 : ((c :: rest).dropWhile Char.isDigit).length ≤ rest.length := by
                rw [List.dropWhile_cons_of_pos hc]
                exact dwle_thm _ rest
              have e2 : r4.length
                  ≤ ((c :: rest).dropWhile Char.isDigit).tail.length := by
                rw [hr4]
                exact dwle_thm _ _
              have e3 : ((c :: rest).dropWhile Char.isDigit).tail.length
                  ≤ ((c :: rest).dropWhile Char.isDigit).length := by
                cases (c :: rest).dropWhile Char.isDigit with
                | nil => simp
                | cons a as => simp
              omega
            rw [ih r4 hr4n]
          · -- digit run not followed by a dot-space marker
            have hrh : ∀ a, (((c :: rest).dropWhile Char.isDigit)).head? = some a
                → a.isDigit = false := head_dropWhile_no _ _
            have hdsd : ∀ a ∈ (c :: rest).takeWhile Char.isDigit, a.isDigit = true :=
              fun a ha => List.mem_takeWhile_imp ha
            have hsplit : (c :: rest).takeWhile Char.isDigit
                ++ (c :: rest).dropWhile Char.isDigit = c :: rest :=
              List.takeWhile_append_dropWhile _ _
            rw [← hsplit, ppAux_digits_app _ _ hdsd hrh h3]
            have hr2 : ∀ a, (ppAux ((c :: rest).dropWhile Char.isDigit)).head? = some a
                → a.isDigit = false := by
              intro a ha
              rw [head?_ppAux] at ha
              exact hrh a ha
            have hfail2 : ¬((ppAux ((c :: rest).dropWhile Char.isDigit)).head? = some '.'
                ∧ (ppAux ((c :: rest).dropWhile Char.isDigit)).tail.head? = some ' ') := by
              rintro ⟨ha, hb⟩
              rw [head?_ppAux] at ha
              -- r starts with '.'; then by h3 the character after the dot is not a space
              rcases hr : (c :: rest).dropWhile Char.isDigit with _ | ⟨d, r2⟩
              · rw [hr] at ha
                simp at ha
              · rw [hr] at ha
                simp at ha
                subst ha
                have hnb : r2.head? ≠ some ' ' := by
                  intro hx
                  exact h3 (by rw [hr]; exact ⟨rfl, hx⟩)
                rw [hr, ppAux_other '.' r2 (by decide) (by decide)] at hb
                simp only [List.tail_cons] at hb
                rw [head?_ppAux] at hb
                exact hnb hb
            rw [ppAux_digits_app _ _ hdsd hr2 hfail2]
            have hrn : ((c :: rest).dropWhile Char.isDigit).length ≤ n := by
              have : ((c :: rest).dropWhile Char.isDigit).length ≤ rest.length := by
                rw [List.dropWhile_cons_of_pos hc]
                exact dwle_thm _ rest
              omega
            rw [ih _ hrn]
        · have hc' : c.isDigit = false := by simpa using hc
          rw [ppAux_other c rest h1 hc']
          rw [ppAux_other c (ppAux rest) h1 hc', ih rest hrest]

theorem ppAux_idem (l : List Char) : ppAux (ppAux l) = ppAux l :=
  ppAux_idem_aux l.length l (le_refl _)

theorem ne_dot_of_digit {c : Char} (hc : c.isDigit = true) : c ≠ '.' := by
  intro he
  rw [he] at hc
  simp [Char.isDigit] at hc

theorem noExtraSpace_cons (a : Char) (X : List Char) :
    noExtraSpace (a :: X) = (!badAt (a :: X) && noExtraSpace X) := by
  rw [noExtraSpace]

theorem badAt_no_marker (l : List Char) (h1 : l.head? ≠ some '-')
    (h2 : ∀ a, l.head? = some a → a.isDigit = false) : badAt l = false := by
  match l with
  | [] => rw [badAt]; rfl
  | a :: r =>
    have ha1 : a ≠ '-' := fun he => h1 (by rw [he]; rfl)
    have ha2 : a.isDigit = false := h2 a rfl
    rw [badAt]
    simp [ha1, ha2]

theorem badAt_dash_one (X : List Char) (h : X.head? ≠ some ' ') :
    badAt ('-' :: ' ' :: X) = false := by
  match X with
  | [] => rw [badAt]; rfl
  | a :: r =>
    have ha : a ≠ ' ' := fun he => h (by rw [he]; rfl)
    rw [badAt]
    simp [ha]

theorem badAt_dash_nosp (Y : List Char) (h : Y.head? ≠ some ' ') :
    badAt ('-' :: Y) = false := by
  match Y with
  | [] => rw [badAt]; rfl
  | a :: r =>
    have ha : a ≠ ' ' := fun he => h (by rw [he]; rfl)
    rw [badAt]
    simp [ha]

theorem badAt_digit_safe (d : Char) (Y : List Char) (hnd : d ≠ '-')
    (hY : ¬(Y.head? = some '.' ∧ Y.tail.head? = some ' '
        ∧ Y.tail.tail.head? = some ' ')) : badAt (d :: Y) = false := by
  match Y with
  | [] => rw [badAt]; simp [hnd]
  | [a] => rw [badAt]; simp [hnd]
  | [a, b] => rw [badAt]; simp [hnd]
  | a :: b :: e :: r =>
    rw [badAt]
    simp only [List.head?_cons, List.tail_cons] at hY ⊢
    by_cases ha : a = '.'
    · subst ha
      by_cases hb : b = ' '
      · subst hb
        have hce : e ≠ ' ' := fun hx => hY ⟨rfl, rfl, by rw [hx]⟩
        simp [hnd, hce]
      · simp [hnd, hb]
    · simp [hnd, ha]

theorem noExtra_digits_dotsp (ds X : List Char) (hds : ∀ a ∈ ds, a.isDigit = true)
    (hX : X.head? ≠ some ' ') :
    noExtraSpace (ds ++ '.' :: ' ' :: X) = noExtraSpace X := by
  induction ds with
  | nil =>
    rw [List.nil_append, noExtraSpace_cons, noExtraSpace_cons]
    rw [badAt_no_marker _ (by simp) (by simp)]
    rw [badAt_no_marker _ (by simp) (by simp)]
    simp
  | cons d ds ih =>
    have hd : d.isDigit = true := hds d (by simp)
    have hds' : ∀ a ∈ ds, a.isDigit = true := fun a ha => hds a (by simp [ha])
    rw [List.cons_append, noExtraSpace_cons, ih hds']
    have hbad : badAt (d :: (ds ++ '.' :: ' ' :: X)) = false := by
      apply badAt_digit_safe _ _ (ne_dash_of_digit hd)
      cases ds with
      | nil =>
        simp only [List.nil_append, List.head?_cons, List.tail_cons]
        rintro ⟨-, -, hx⟩
        exact hX hx
      | cons e es =>
        have he : e.isDigit = true := hds' e (by simp)
        simp only [List.cons_append, List.head?_cons]
        rintro ⟨hx, -⟩
        exact absurd (Option.some.inj hx) (ne_dot_of_digit he)
    rw [hbad]
    simp

theorem noExtra_digits_app (ds Y : List Char) (hds : ∀ a ∈ ds, a.isDigit = true)
    (hY : ¬(Y.head? = some '.' ∧ Y.tail.head? = some ' '
        ∧ Y.tail.tail.head? = some ' ')) :
    noExtraSpace (ds ++ Y) = noExtraSpace Y := by
  induction ds with
  | nil => simp
  | cons d ds ih =>
    have hd : d.isDigit = true := hds d (by simp)
    have hds' : ∀ a ∈ ds, a.isDigit = true := fun a ha => hds a (by simp [ha])
    rw [List.cons_append, noExtraSpace_cons, ih hds']
    have hbad : badAt (d :: (ds ++ Y)) = false := by
      apply badAt_digit_safe _ _ (ne_dash_of_digit hd)
      cases ds with
      | nil =>
        simpa using hY
      | cons e es =>
        have he : e.isDigit = true := hds' e (by simp)
        simp only [List.cons_append, List.head?_cons]
        rintro ⟨hx, -⟩
        exact absurd (Option.some.inj hx) (ne_dot_of_digit he)
    rw [hbad]
    simp

theorem noExtraSpace_ppAux_aux : ∀ (n : Nat) (l : List Char), l.length ≤ n →
    noExtraSpace (ppAux l) = true := by
  intro n
  induction n with
  | zero =>
    intro l hl
    have : l = [] := List.length_eq_zero.mp (Nat.le_zero.mp hl)
    subst this
    simp [ppAux, noExtraSpace]
  | succ n ih =>
    intro l hl
    match l with
    | [] => simp [ppAux, noExtraSpace]
    | c :: rest =>
      have hrest : rest.length ≤ n := by
        simp only [List.length_cons] at hl
        omega
      by_cases h1 : c = '-'
      · subst h1
        by_cases h2 : rest.head? = some ' '
        · rw [ppAux_dash_hit rest h2]
          have hr3 : (ppAux (rest.dropWhile (· = ' '))).head? ≠ some ' ' := by
            rw [head?_ppAux]
            exact dropWhile_space_head rest
          rw [noExtraSpace_cons, noExtraSpace_cons,
            badAt_dash_one _ hr3,
            badAt_no_marker _ (by simp) (by simp),
            ih _ (le_trans (dwle_thm _ rest) hrest)]
          rfl
        · rw [ppAux_dash_miss rest h2]
          have h2' : (ppAux rest).head? ≠ some ' ' := by
            rw [head?_ppAux]
            exact h2
          rw [noExtraSpace_cons, badAt_dash_nosp _ h2', ih rest hrest]
          rfl
      · by_cases hc : c.isDigit = true
        · by_cases h3 : ((c :: rest).dropWhile Char.isDigit).head? = some '.'
            ∧ ((c :: rest).dropWhile Char.isDigit).tail.head? = some ' '
          · obtain ⟨hdot, hsp⟩ := h3
            rw [ppAux_digit_hit c rest hc hdot hsp]
            have hdsd : ∀ a ∈ (c :: rest).takeWhile Char.isDigit, a.isDigit = true :=
              fun a ha => List.mem_takeWhile_imp ha
            have hr4h : (ppAux (((c :: rest).dropWhile Char.isDigit).tail.dropWhile (· = ' '))).head?
                ≠ some ' ' := by
              rw [head?_ppAux]
              exact dropWhile_space_head _
            rw [noExtra_digits_dotsp _ _ hdsd hr4h]
            apply ih
            have e1 : ((c :: rest).dropWhile Char.isDigit).length ≤ rest.length := by
              rw [List.dropWhile_cons_of_pos hc]
              exact dwle_thm _ rest
            have e2 := dwle_thm (fun x => decide (x = ' '))
              ((c :: rest).dropWhile Char.isDigit).tail
            have e3 : ((c :: rest).dropWhile Char.isDigit).tail.length
                ≤ ((c :: rest).dropWhile Char.isDigit).length := by
              cases (c :: rest).dropWhile Char.isDigit with
              | nil => simp
              | cons a as => simp
            omega
          · have hrh : ∀ a, (((c :: rest).dropWhile Char.isDigit)).head? = some a
                → a.isDigit = false := head_dropWhile_no _ _
            have hdsd : ∀ a ∈ (c :: rest).takeWhile Char.isDigit, a.isDigit = true :=
              fun a ha => List.mem_takeWhile_imp ha
            have hsplit : (c :: rest).takeWhile Char.isDigit
                ++ (c :: rest).dropWhile Char.isDigit = c :: rest :=
              List.takeWhile_append_dropWhile _ _
            rw [← hsplit, ppAux_digits_app _ _ hdsd hrh h3]
            have hY : ¬((ppAux ((c :: rest).dropWhile Char.isDigit)).head? = some '.'
                ∧ (ppAux ((c :: rest).dropWhile Char.isDigit)).tail.head? = some ' '
                ∧ (ppAux ((c :: rest).dropWhile Char.isDigit)).tail.tail.head? = some ' ') := by
              rintro ⟨ha, hb, -⟩
              rw [head?_ppAux] at ha
              rcases hr : (c :: rest).dropWhile Char.isDigit with _ | ⟨d, r2⟩
              · rw [hr] at ha
                simp at ha
              · rw [hr] at ha
                simp at ha
                subst ha
                have hnb : r2.head? ≠ some ' ' := by
                  intro hx
                  exact h3 (by rw [hr]; exact ⟨rfl, hx⟩)
                rw [hr, ppAux_other '.' r2 (by decide) (by decide)] at hb
                simp only [List.tail_cons] at hb
                rw [head?_ppAux] at hb
                exact hnb hb
            rw [noExtra_digits_app _ _ hdsd hY]
            apply ih
            have : ((c :: rest).dropWhile Char.isDigit).length ≤ rest.length := by
              rw [List.dropWhile_cons_of_pos hc]
              exact dwle_thm _ rest
            omega
        · have hc' : c.isDigit = false := by simpa using hc
          rw [ppAux_other c rest h1 hc', noExtraSpace_cons,
            badAt_no_marker _ (by simp [h1]) (by intro a ha; simp at ha; rw [← ha]; exact hc'),
            ih rest hrest]
          rfl

theorem noExtraSpace_ppAux (l : List Char) : noExtraSpace (ppAux l) = true :=
  noExtraSpace_ppAux_aux l.length l (le_refl _)

theorem ppAux_dash_run (k : Nat) (rest : List Char) (h : rest.head? ≠ some ' ') :
    ppAux ('-' :: (List.replicate (k + 1) ' ' ++ rest)) = '-' :: ' ' :: ppAux rest := by
  have hsp : ∀ a ∈ List.replicate (k + 1) ' ', (a = ' ') = true := by
    intro a ha
    simp [List.eq_of_mem_replicate ha]
  have hh : (List.replicate (k + 1) ' ' ++ rest).head? = some ' ' := by
    rw [List.replicate_succ, List.cons_append]
    rfl
  rw [ppAux_dash_hit _ hh]
  have hdw : (List.replicate (k + 1) ' ' ++ rest).dropWhile (· = ' ') = rest := by
    rw [List.dropWhile_append_of_pos (by simpa using hsp)]
    apply dropWhile_eq_self_of_head
    intro a ha
    simp only [decide_eq_false_iff_not]
    intro he
    subst he
    exact h ha
  rw [hdw]

theorem ppAux_num_run (ds : List Char) (k : Nat) (rest : List Char)
    (hds : ∀ a ∈ ds, a.isDigit = true) (hne : ds ≠ [])
    (h : rest.head? ≠ some ' ') :
    ppAux (ds ++ '.' :: (List.replicate (k + 1) ' ' ++ rest))
      = ds ++ '.' :: ' ' :: ppAux rest := by
  match ds with
  | d :: ds' =>
    have hd : d.isDigit = true := hds d (by simp)
    have hds' : ∀ a ∈ ds', a.isDigit = true := fun a ha => hds a (by simp [ha])
    have hdw : ((d :: ds') ++ '.' :: (List.replicate (k + 1) ' ' ++ rest)).dropWhile Char.isDigit
        = '.' :: (List.replicate (k + 1) ' ' ++ rest) := by
      rw [List.dropWhile_append_of_pos hds, List.dropWhile_cons]
      simp
    have htw : ((d :: ds') ++ '.' :: (List.replicate (k + 1) ' ' ++ rest)).takeWhile Char.isDigit
        = d :: ds' := by
      rw [List.takeWhile_append_of_pos hds, List.takeWhile_cons]
      simp
    have hh2 : ('.' :: (List.replicate (k + 1) ' ' ++ rest)).tail.head? = some ' ' := by
      rw [List.tail_cons, List.replicate_succ, List.cons_append]
      rfl
    rw [List.cons_append,
      ppAux_digit_hit d (ds' ++ '.' :: (List.replicate (k + 1) ' ' ++ rest)) hd
        (by rw [← List.cons_append, hdw]; rfl)
        (by rw [← List.cons_append, hdw]; exact hh2)]
    rw [← List.cons_append, hdw, htw]
    have hdw2 : (('.' :: (List.replicate (k + 1) ' ' ++ rest)).tail.dropWhile (· = ' ')) = rest := by
      rw [List.tail_cons, List.dropWhile_append_of_pos
        (by intro a ha; simpa using List.eq_of_mem_replicate ha)]
      apply dropWhile_eq_self_of_head
      intro a ha
      simp only [decide_eq_false_iff_not]
      intro he
      subst he
      exact h ha
    rw [hdw2]
/-- C6: the postprocessing step (list-marker space normalization) is
idempotent: applying it to an already-postprocessed string returns the string
unchanged. -/
theorem C6_postprocess_idempotent (s : String) :
    postprocess (postprocess s) = postprocess s :=
  congrArg String.mk (ppAux_idem s.data)

/-- C7: postprocessing rewrites every occurrence of an unordered marker `-`
or an ordered marker `digits.` followed by one or more spaces into the marker
followed by exactly one space: the two concrete examples of the claim hold; no
position of the output starts a marker followed by two or more spaces; and a
marker followed by `k+1` spaces (with a non-space continuation) is rewritten
to the marker followed by exactly one space. -/
theorem C7_marker_space_normalization :
    postprocess "-   item" = "- item"
    ∧ postprocess "12.   item" = "12. item"
    ∧ (∀ s : String, noExtraSpace (postprocess s).data = true)
    ∧ (∀ (k : Nat) (rest : List Char), rest.head? ≠ some ' ' →
        ppAux ('-' :: (List.replicate (k + 1) ' ' ++ rest)) = '-' :: ' ' :: ppAux rest)
    ∧ (∀ (ds : List Char) (k : Nat) (rest : List Char),
        (∀ a ∈ ds, a.isDigit = true) → ds ≠ [] → rest.head? ≠ some ' ' →
        ppAux (ds ++ '.' :: (List.replicate (k + 1) ' ' ++ rest))
          = ds ++ '.' :: ' ' :: ppAux rest) := by
  refine ⟨?_, ?_, ?_, ?_, ?_⟩
  · simp [postprocess, ppAux]
  · simp [postprocess, ppAux]
  · intro s
    exact noExtraSpace_ppAux s.data
  · exact ppAux_dash_run
  · exact ppAux_num_run

/-- Witness for C7: the run lemmas applied at the claim's concrete inputs
(`-` and `12.` followed by three spaces and `item`). -/
theorem C7_marker_space_normalization_witness :
    ppAux ('-' :: (List.replicate 3 ' ' ++ "item".data)) = '-' :: ' ' :: ppAux "item".data
    ∧ ppAux (['1', '2'] ++ '.' :: (List.replicate 3 ' ' ++ "item".data))
      = ['1', '2'] ++ '.' :: ' ' :: ppAux "item".data :=
  ⟨C7_marker_space_normalization.2.2.2.1 2 "item".data (by decide),
   C7_marker_space_normalization.2.2.2.2 ['1', '2'] 2 "item".data
     (by decide) (by decide) (by decide)⟩

/-- C10: the postprocessing space-collapse applies anywhere in the string —
inside the fenced code block emitted by the pre rule (whose content is
altered, as shown on a concrete `pre` node) and in mid-line prose — not only
at list markers at the start of a line. -/
theorem C10_postprocess_position_insensitive :
    preFilter samplePre = true
    ∧ preReplacement samplePre = "\n\n```\nx -  y\n```\n\n"
    ∧ postprocess (preReplacement samplePre) = "\n\n```\nx - y\n```\n\n"
    ∧ postprocess (preReplacement samplePre) ≠ preReplacement samplePre
    ∧ postprocess "a -  b" = "a - b" := by
  have h1 : preReplacement samplePre = "\n\n```\nx -  y\n```\n\n" := by
    simp [preReplacement, samplePre, getAttrVal, textContent, textContentList]
  refine ⟨?_, h1, ?_, ?_, ?_⟩
  · simp [preFilter, samplePre, nodeName, upper, querySelector, qsList]
  · rw [h1]
    simp [postprocess, ppAux]
  · rw [h1]
    simp [postprocess, ppAux]
  · simp [postprocess, ppAux]

/-- C5: with image rewriting enabled, the regex at translator.js:172 mangles
an img tag whose src has an unrecognized extension when a later attribute
value ends in a recognized one: `<img src="foo.bmp" alt="y.png">` becomes
`<img src="images/y.png">` (the real src and the alt attribute are dropped),
contradicting the claim that such tags are left entirely unchanged.  The
intended cases behave as claimed: `foo.png` is prefixed, a lone `foo.bmp` is
untouched, and nothing changes when the flag is disabled. -/
theorem C5_image_rewrite_mangles_non_image_src :
    imgRewriteStep true "<img src=\"foo.bmp\" alt=\"y.png\">"
      = "<img src=\"images/y.png\">"
    ∧ imgRewriteStep true "<img src=\"foo.bmp\" alt=\"y.png\">"
      ≠ "<img src=\"foo.bmp\" alt=\"y.png\">"
    ∧ imgRewriteStep true "<img src=\"foo.png\">" = "<img src=\"images/foo.png\">"
    ∧ imgRewriteStep true "<img src=\"foo.bmp\">" = "<img src=\"foo.bmp\">"
    ∧ (∀ s : String, imgRewriteStep false s = s) := by
  refine ⟨by decide, by decide, by decide, by decide, ?_⟩
  intro s
  simp [imgRewriteStep]
theorem string_empty_append (s : String) : "" ++ s = s := by
  cases s
  rfl

/-- For any engine `td`, a table-wrapper figure with no nested table but with
a figcaption produces a nonempty result (it starts with a blank-line
separator), for every converted-children string. -/
theorem wpBlockTable_caption_nonempty (td : String → String) (content : String)
    (node fc : DNode)
    (ht : querySelector node (Selector.tag "table") = none)
    (hf : querySelector node (Selector.tag "figcaption") = some fc) :
    wpBlockTableReplacement td content node ≠ "" := by
  intro h
  rw [wpBlockTableReplacement, ht, hf] at h
  have := congrArg String.data h
  simp [String.data_append] at this

/-- C1 (counterexample): a `figure.wp-block-table` with a figcaption but no
table does not map to the empty string — the replacement emits a blank-line
separator followed by the converted caption (shown here with the identity
engine; `wpBlockTable_caption_nonempty` shows nonemptiness for every
engine). -/
theorem C1_counterexample :
    wpBlockTableFilter figTableNoTable = true
    ∧ querySelector figTableNoTable (Selector.tag "table") = none
    ∧ wpBlockTableReplacement id "" figTableNoTable = "\n\n<figcaption>cap</figcaption>"
    ∧ wpBlockTableReplacement id "" figTableNoTable ≠ "" := by
  have h2 : querySelector figTableNoTable (Selector.tag "table") = none := by
    simp [querySelector, figTableNoTable, qsList, selMatches]
  have h3 : querySelector figTableNoTable (Selector.tag "figcaption")
      = some (.elem "figcaption" [] [.text "cap"]) := by
    simp [querySelector, figTableNoTable, qsList, selMatches]
  refine ⟨?_, h2, ?_, ?_⟩
  · simp [wpBlockTableFilter, figTableNoTable, nodeName, upper, classListContains,
      getAttrVal, classTokens]
  · rw [wpBlockTableReplacement, h2, h3]
    simp [outerHTML, innerHTMLList, attrsHtml]
  · exact wpBlockTable_caption_nonempty id "" figTableNoTable _ h2 h3

/-- C1 (amended): for every engine `td`, converted-children string and
table-wrapper figure with no nested table, the replacement returns the empty
string when there is no figcaption, and a blank-line separator followed by
the converted caption when there is one. -/
theorem C1_no_table_behavior (td : String → String) (content : String) (node : DNode)
    (hfilter : wpBlockTableFilter node = true)
    (ht : querySelector node (Selector.tag "table") = none) :
    wpBlockTableReplacement td content node
      = (match querySelector node (Selector.tag "figcaption") with
         | some fc => "\n\n" ++ td (outerHTML fc)
         | none => "") := by
  rw [wpBlockTableReplacement, ht]
  cases querySelector node (Selector.tag "figcaption") with
  | none => rfl
  | some fc =>
    show "" ++ "\n\n" ++ td (outerHTML fc) = "\n\n" ++ td (outerHTML fc)
    rw [string_empty_append ("\n\n" : String)]

/-- Witness for C1: on a bare table-wrapper figure (no table, no caption) the
replacement returns the empty string. -/
theorem C1_no_table_behavior_witness :
    wpBlockTableReplacement id "" figTableBare = "" := by
  rw [C1_no_table_behavior id "" figTableBare
    (by simp [wpBlockTableFilter, figTableBare, nodeName, upper, classListContains,
      getAttrVal, classTokens])
    (by simp [querySelector, figTableBare, qsList])]
  simp [querySelector, figTableBare, qsList]
theorem sfa_cons_neg (sep : List Char) (c : Char) (l : List Char)
    (h : sep.isPrefixOf (c :: l) = false) :
    splitFirstAux sep (c :: l)
      = (splitFirstAux sep l).map (fun p => (c :: p.1, p.2)) := by
  rw [splitFirstAux]
  simp [h]

/-- Scanning a newline-free chunk cannot start a four-newline match. -/
theorem sfa_quad_chunk (cs tail : List Char) (hcs : ∀ a ∈ cs, a ≠ '\n')
    (ht : splitFirstAux "\n\n\n\n".data tail = none) :
    splitFirstAux "\n\n\n\n".data (cs ++ tail) = none := by
  induction cs with
  | nil => simpa using ht
  | cons e es ih =>
    have he : e ≠ '\n' := hcs e (by simp)
    have hes : ∀ a ∈ es, a ≠ '\n' := fun a ha => hcs a (by simp [ha])
    have hpre : ("\n\n\n\n".data).isPrefixOf (e :: (es ++ tail)) = false := by
      show (['\n', '\n', '\n', '\n'].isPrefixOf (e :: (es ++ tail))) = false
      rw [List.isPrefixOf]
      simp [Ne.symm he]
    rw [List.cons_append, sfa_cons_neg _ _ _ hpre, ih hes]
    rfl

/-- A double newline followed by a quad-free tail whose head is not a newline
cannot start a four-newline match either. -/
theorem sfa_quad_two_nl (tail : List Char) (h0 : tail.head? ≠ some '\n')
    (ht : splitFirstAux "\n\n\n\n".data tail = none) :
    splitFirstAux "\n\n\n\n".data ('\n' :: '\n' :: tail) = none := by
  have hnext : (['\n', '\n'] : List Char).isPrefixOf tail = false := by
    cases tail with
    | nil => rfl
    | cons a r =>
      have ha : a ≠ '\n' := fun he => h0 (by rw [he]; rfl)
      rw [List.isPrefixOf]
      simp [Ne.symm ha]
  have hnext3 : (['\n', '\n', '\n'] : List Char).isPrefixOf tail = false := by
    cases tail with
    | nil => rfl
    | cons a r =>
      have ha : a ≠ '\n' := fun he => h0 (by rw [he]; rfl)
      rw [List.isPrefixOf]
      simp [Ne.symm ha]
  have hp1 : ("\n\n\n\n".data).isPrefixOf ('\n' :: '\n' :: tail) = false := by
    show (['\n', '\n', '\n', '\n'].isPrefixOf ('\n' :: '\n' :: tail)) = false
    rw [List.isPrefixOf, List.isPrefixOf]
    simp [hnext]
  have hp2 : ("\n\n\n\n".data).isPrefixOf ('\n' :: tail) = false := by
    show (['\n', '\n', '\n', '\n'].isPrefixOf ('\n' :: tail)) = false
    rw [List.isPrefixOf]
    simp [hnext3]
  rw [sfa_cons_neg _ _ _ hp1, sfa_cons_neg _ _ _ hp2, ht]
  rfl

/-- The full figure wrap of a nonempty newline-free children string contains
no four consecutive newlines. -/
theorem sfa_quad_wrap (content : String) (hnl : ∀ a ∈ content.data, a ≠ '\n')
    (hne : content ≠ "") :
    splitFirstAux "\n\n\n\n".data
      ("\n\n<figure>\n\n" ++ content ++ "\n\n</figure>\n\n").data = none := by
  have hdata : ("\n\n<figure>\n\n" ++ content ++ "\n\n</figure>\n\n").data
      = '\n' :: '\n' :: ("<figure>".data
          ++ ('\n' :: '\n' :: (content.data ++ "\n\n</figure>\n\n".data))) := by
    rw [String.data_append, String.data_append]
    have h1 : "\n\n<figure>\n\n".data
        = ['\n', '\n'] ++ "<figure>".data ++ ['\n', '\n'] := by decide
    rw [h1]
    simp
  rw [hdata]
  have hcne : content.data ≠ [] := by
    intro h
    apply hne
    cases content
    simp at h
    rw [h]
  apply sfa_quad_two_nl
  · have hh : ("<figure>".data
        ++ ('\n' :: '\n' :: (content.data ++ "\n\n</figure>\n\n".data))).head?
        = some '<' := rfl
    rw [hh]
    simp
  · apply sfa_quad_chunk
    · decide
    · apply sfa_quad_two_nl
      · cases hcd : content.data with
        | nil => exact absurd hcd hcne
        | cons d r =>
          have hd : d ≠ '\n' := hnl d (by rw [hcd]; simp)
          simpa using hd
      · apply sfa_quad_chunk
        · exact hnl
        · decide

/-- C3 (counterexample): JS `String.prototype.replace` with a string pattern
replaces only the first occurrence, so when the converted children begin and
end with blank lines the figure rule's result still contains a
quadruple-newline sequence (only the first of the two is collapsed). -/
theorem C3_counterexample :
    (querySelector figWithCaption (Selector.tag "figcaption")).isSome = true
    ∧ figureReplacement "\n\nA\n\n" figWithCaption
      = "\n\n<figure>\n\nA\n\n\n\n</figure>\n\n"
    ∧ containsSeq "\n\n\n\n".data
        (figureReplacement "\n\nA\n\n" figWithCaption).data = true := by
  have hq : (querySelector figWithCaption (Selector.tag "figcaption")).isSome = true := by
    simp [querySelector, figWithCaption, qsList, selMatches]
  have h2 : figureReplacement "\n\nA\n\n" figWithCaption
      = "\n\n<figure>\n\nA\n\n\n\n</figure>\n\n" := by
    rw [figureReplacement, if_pos hq]
    decide
  refine ⟨hq, h2, ?_⟩
  rw [h2]
  decide

/-- C3 (amended): a figure without figcaption passes its converted children
through unchanged; a figure with a figcaption wraps them in `<figure>` tags
with blank-line padding and collapses only the *first* quadruple-newline
occurrence to a double one — in particular, when the children contain no
newline at all, the result is exactly the padded wrap and contains no
quadruple newline. -/
theorem C3_figure_first_quad_only (content : String) (node : DNode) :
    ((querySelector node (Selector.tag "figcaption")).isSome = false →
      figureReplacement content node = content)
    ∧ ((querySelector node (Selector.tag "figcaption")).isSome = true →
      figureReplacement content node
        = jsReplaceFirst ("\n\n<figure>\n\n" ++ content ++ "\n\n</figure>\n\n")
            "\n\n\n\n" "\n\n")
    ∧ ((querySelector node (Selector.tag "figcaption")).isSome = true →
      (∀ a ∈ content.data, a ≠ '\n') → content ≠ "" →
      figureReplacement content node
        = "\n\n<figure>\n\n" ++ content ++ "\n\n</figure>\n\n"
      ∧ containsSeq "\n\n\n\n".data (figureReplacement content node).data = false) := by
  refine ⟨?_, ?_, ?_⟩
  · intro h
    rw [figureReplacement, if_neg (by simp [h])]
  · intro h
    rw [figureReplacement, if_pos h]
  · intro h hnl hne
    have hsfa := sfa_quad_wrap content hnl hne
    have heq : figureReplacement content node
        = "\n\n<figure>\n\n" ++ content ++ "\n\n</figure>\n\n" := by
      rw [figureReplacement, if_pos h, jsReplaceFirst, hsfa]
    refine ⟨heq, ?_⟩
    rw [heq]
    show (splitFirstAux "\n\n\n\n".data
      ("\n\n<figure>\n\n" ++ content ++ "\n\n</figure>\n\n").data).isSome = false
    rw [hsfa]
    rfl

/-- Witness for C3: the no-caption figure passes `"hi"` through; the
captioned figure wraps `"hi"` with no quadruple newline in the result. -/
theorem C3_figure_first_quad_only_witness :
    figureReplacement "hi" figPlain = "hi"
    ∧ figureReplacement "hi" figWithCaption = "\n\n<figure>\n\nhi\n\n</figure>\n\n"
    ∧ containsSeq "\n\n\n\n".data (figureReplacement "hi" figWithCaption).data = false := by
  have h1 := (C3_figure_first_quad_only "hi" figPlain).1
    (by simp [querySelector, figPlain, qsList, selMatches])
  have h3 := (C3_figure_first_quad_only "hi" figWithCaption).2.2
    (by simp [querySelector, figWithCaption, qsList, selMatches])
    (by decide) (by decide)
  exact ⟨h1, h3.1, h3.2⟩
theorem escapeMoreAux_nomatch (l : List Char) (h : hasMoreMatch l = false) :
    escapeMoreAux l = l := by
  induction l with
  | nil => rfl
  | cons c cs ih =>
    rw [hasMoreMatch] at h
    simp only [Bool.or_eq_false_iff] at h
    rw [escapeMoreAux]
    have hn : matchMoreAt (c :: cs) = none := by
      rcases hm : matchMoreAt (c :: cs) with _ | p
      · rfl
      · rw [hm] at h
        simp at h
    rw [hn, ih h.2]

/-- C2 (counterexample): for the content `<!--more-->`, preprocessing does
produce the entity-escaped form, but the conversion step unescapes it (per
the source comment on translator.js:176), so the entity-escaped form does not
appear in the final Markdown output — the literal `<!--more-->` does. -/
theorem C2_counterexample :
    escapeMoreStep "<!--more-->" = "&lt;!--more--&gt;"
    ∧ convertPlainText "<!--more-->" = "<!--more-->"
    ∧ containsSeq "&lt;!--more--&gt;".data (convertPlainText "<!--more-->").data
        = false := by
  have h2 : convertPlainText "<!--more-->" = "<!--more-->" := by
    simp [convertPlainText, divInsertStep, escapeMoreStep, unescEntities, postprocess,
      divIns, escapeMoreAux, matchMoreAt, arrowSplitsAux, unescEntAux, ppAux]
  refine ⟨by decide, h2, ?_⟩
  rw [h2]
  decide

/-- C2 (amended): preprocessing performs a single leftmost replacement of the
more-comment pattern, escaping its angle brackets to `&lt;`/`&gt;` (the
concrete examples show a bare marker, a custom label, and two markers on
separate lines, where only the first is escaped); a string with no match
anywhere is left unchanged; and the conversion step turns the escaped form
back into the literal `<!--more-->`. -/
theorem C2_more_escape_behavior :
    escapeMoreStep "<!--more-->" = "&lt;!--more--&gt;"
    ∧ escapeMoreStep "<!--more Read on!-->" = "&lt;!--more Read on!--&gt;"
    ∧ escapeMoreStep "A<!--more one-->\nB<!--more two-->C"
      = "A&lt;!--more one--&gt;\nB<!--more two-->C"
    ∧ (∀ s : String, hasMoreMatch s.data = false → escapeMoreStep s = s)
    ∧ unescEntities "&lt;!--more--&gt;" = "<!--more-->" := by
  refine ⟨by decide, by decide, by decide, ?_, by decide⟩
  intro s h
  show (⟨escapeMoreAux s.data⟩ : String) = s
  rw [escapeMoreAux_nomatch s.data h]

/-- Witness for C2: a string containing no more-comment is unchanged by the
escaping step. -/
theorem C2_more_escape_behavior_witness : escapeMoreStep "hello world" = "hello world" :=
  C2_more_escape_behavior.2.2.2.1 "hello world" (by decide)
theorem jsSplit0_eq_segBeforeFirst (sep s : String) :
    jsSplit0 sep s = segBeforeFirst sep s := by
  rw [jsSplit0, segBeforeFirst]
  cases splitFirstAux sep.data s.data with
  | none => rfl
  | some p => rfl

/-- C4 (amended): the extractor agrees everywhere with the amended
description (the segment between the first and second occurrence of the
separator, then cut at the next `&` resp. `?`); the claim's three concrete
examples hold; and an empty extracted id (or a missing wrapper) makes the
embed rule fall back to the converted children. -/
theorem C4_video_id_extraction :
    (∀ url : String, extractYoutubeVideoId url = amendedVideoId url)
    ∧ extractYoutubeVideoId "https://www.youtube.com/watch?v=ABC123&feature=x" = "ABC123"
    ∧ extractYoutubeVideoId "https://youtu.be/XYZ789?t=5" = "XYZ789"
    ∧ extractYoutubeVideoId "https://example.com/video" = ""
    ∧ (∀ (content : String) (node : DNode),
        querySelector node (Selector.cls "wp-block-embed__wrapper") = none →
        wpEmbedYoutubeReplacement content node = content)
    ∧ (∀ (content : String) (node wrapper : DNode),
        querySelector node (Selector.cls "wp-block-embed__wrapper") = some wrapper →
        extractYoutubeVideoId (jsTrim (textContent wrapper)) = "" →
        wpEmbedYoutubeReplacement content node = content) := by
  refine ⟨?_, by decide, by decide, by decide, ?_, ?_⟩
  · intro url
    rw [extractYoutubeVideoId, extractBody, amendedVideoId]
    by_cases h1 : occursIn "watch?v=" url
    · rw [if_pos h1, if_pos h1]
      have h1' : (splitFirstAux "watch?v=".data url.data).isSome = true := h1
      rcases hsp : splitFirstAux "watch?v=".data url.data with _ | ⟨b, rest⟩
      · rw [hsp] at h1'
        simp at h1'
      · rw [jsSplit1?, hsp, segAfterFirst?, hsp]
        simp [jsSplit0_eq_segBeforeFirst]
    · rw [if_neg h1, if_neg h1]
      by_cases h2 : occursIn "youtu.be/" url
      · rw [if_pos h2, if_pos h2]
        have h2' : (splitFirstAux "youtu.be/".data url.data).isSome = true := h2
        rcases hsp : splitFirstAux "youtu.be/".data url.data with _ | ⟨b, rest⟩
        · rw [hsp] at h2'
          simp at h2'
        · rw [jsSplit1?, hsp, segAfterFirst?, hsp]
          simp [jsSplit0_eq_segBeforeFirst]
      · rw [if_neg h2, if_neg h2]
        rfl
  · intro content node hq
    rw [wpEmbedYoutubeReplacement, hq]
  · intro content node wrapper hq he
    rw [wpEmbedYoutubeReplacement, hq]
    simp [he]

/-- Witness for C4: on a YouTube-embed figure whose wrapper holds a
non-YouTube URL, the extracted id is empty and the rule returns the converted
children. -/
theorem C4_video_id_extraction_witness :
    wpEmbedYoutubeReplacement "children" ytFigOther = "children" := by
  apply C4_video_id_extraction.2.2.2.2.2 "children" ytFigOther
    (DNode.elem "div" [("class", "wp-block-embed__wrapper")]
      [DNode.text "https://example.com/video"])
  · simp [querySelector, ytFigOther, qsList, selMatches, classListContains,
      getAttrVal, classTokens]
  · have ht : textContent (DNode.elem "div" [("class", "wp-block-embed__wrapper")]
        [DNode.text "https://example.com/video"]) = "https://example.com/video" := by
      simp [textContent, textContentList]
    rw [ht]
    decide

/-- C9: the video-id extraction is total: the `try` body never evaluates the
faulting JS expression (the guards ensure `split(…)[1]` exists), so the
`catch` branch is unreachable; and a URL ending right at the separator yields
the empty identifier. -/
theorem C9_extract_never_throws :
    (∀ url : String, (extractBody url).isSome = true)
    ∧ extractYoutubeVideoId "https://a/watch?v=" = ""
    ∧ extractYoutubeVideoId "https://youtu.be/" = "" := by
  refine ⟨?_, by decide, by decide⟩
  intro url
  rw [extractBody]
  by_cases h1 : occursIn "watch?v=" url
  · rw [if_pos h1]
    have h1' : (splitFirstAux "watch?v=".data url.data).isSome = true := h1
    rcases hsp : splitFirstAux "watch?v=".data url.data with _ | ⟨b, rest⟩
    · rw [hsp] at h1'
      simp at h1'
    · rw [jsSplit1?, hsp]
      rfl
  · rw [if_neg h1]
    by_cases h2 : occursIn "youtu.be/" url
    · rw [if_pos h2]
      have h2' : (splitFirstAux "youtu.be/".data url.data).isSome = true := h2
      rcases hsp : splitFirstAux "youtu.be/".data url.data with _ | ⟨b, rest⟩
      · rw [hsp] at h2'
        simp at h2'
      · rw [jsSplit1?, hsp]
        rfl
    · rw [if_neg h2]
      rfl

/-- C4 (counterexample): when the separator `watch?v=` occurs twice before
the first `&`, the code's split semantics truncate the id at the second
occurrence of the separator, while the claim's "segment after the first
`watch?v=` up to the next `&`" keeps it. -/
theorem C4_counterexample :
    extractYoutubeVideoId "watch?v=abwatch?v=cd&e" = "ab"
    ∧ claimedVideoId "watch?v=abwatch?v=cd&e" = "abwatch?v=cd"
    ∧ extractYoutubeVideoId "watch?v=abwatch?v=cd&e"
        ≠ claimedVideoId "watch?v=abwatch?v=cd&e" := by
  refine ⟨by decide, by decide, by decide⟩
/-- C8: the script rule emits the node's markup with the first `async=""`
rewritten to bare `async`, preceded by a single newline when the previous
sibling exists and is not a text node and by a double newline otherwise
(no sibling, or a text sibling), and followed by a blank line; the iframe
rule emits the markup with `allowfullscreen=""` and `allowpaymentrequest=""`
rewritten to their bare forms, padded with blank lines on both sides.  The
concrete nodes show the attribute rewriting end to end. -/
theorem C8_script_iframe_passthrough :
    (∀ (node p : DNode), nodeName p ≠ "#text" →
      scriptReplacement node (some p)
        = "\n" ++ jsReplaceFirst (outerHTML node) "async=\"\"" "async" ++ "\n\n")
    ∧ (∀ node : DNode, scriptReplacement node none
        = "\n\n" ++ jsReplaceFirst (outerHTML node) "async=\"\"" "async" ++ "\n\n")
    ∧ (∀ (node : DNode) (s : String), scriptReplacement node (some (DNode.text s))
        = "\n\n" ++ jsReplaceFirst (outerHTML node) "async=\"\"" "async" ++ "\n\n")
    ∧ scriptReplacement tweetScript (some tweetQuote)
      = "\n<script src=\"https://platform.twitter.com/widgets.js\" async></script>\n\n"
    ∧ iframeReplacement sampleIframe
      = "\n\n<iframe src=\"https://e/x\" allowfullscreen></iframe>\n\n" := by
  have hscript : outerHTML tweetScript
      = "<script src=\"https://platform.twitter.com/widgets.js\" async=\"\"></script>" := by
    simp [outerHTML, innerHTMLList, attrsHtml, tweetScript]
  have hiframe : outerHTML sampleIframe
      = "<iframe src=\"https://e/x\" allowfullscreen=\"\"></iframe>" := by
    simp [outerHTML, innerHTMLList, attrsHtml, sampleIframe]
  refine ⟨?_, ?_, ?_, ?_, ?_⟩
  · intro node p hp
    rw [scriptReplacement, prevTightens]
    simp [hp]
  · intro node
    rw [scriptReplacement, prevTightens]
    simp
  · intro node s
    rw [scriptReplacement, prevTightens]
    simp [nodeName]
  · rw [scriptReplacement, prevTightens, hscript]
    have : nodeName tweetQuote = "BLOCKQUOTE" := by
      simp [nodeName, upper, tweetQuote]
    rw [this]
    decide
  · rw [iframeReplacement, hiframe]
    decide

/-- Witness for C8: the single-newline spacing conjunct applied to the
concrete script node with a blockquote sibling. -/
theorem C8_script_iframe_passthrough_witness :
    scriptReplacement tweetScript (some tweetQuote)
      = "\n" ++ jsReplaceFirst (outerHTML tweetScript) "async=\"\"" "async" ++ "\n\n" :=
  C8_script_iframe_passthrough.1 tweetScript tweetQuote
    (by simp [nodeName, upper, tweetQuote])
